import Mathlib

-- Shallow embedding of the java-rand crate (src/lib.rs): a Java-compatible
-- 48-bit linear congruential generator with derived integer, byte, bounded
-- and gaussian draws.  Machine integers are modelled as ℕ/ℤ with explicit
-- reductions modulo 2^64 / masking to 48 bits where the Rust code wraps;
-- panics are modelled as `none` results that leave the generator untouched.

namespace JavaRand

/-- Modulus mask `M`: the low 48 bits, `(1 << 48) - 1`. -/
def M : ℕ := 2 ^ 48 - 1

/-- Multiplier `A` of the linear congruential generator. -/
def A : ℕ := 0x5DEECE66D

/-- Increment `C` of the linear congruential generator. -/
def C : ℕ := 11

/-- Generator: the 48-bit LCG state held in a 64-bit container (always
non-negative, so the `ℕ` value is the two's-complement bit pattern), plus the
optionally cached second gaussian value (`next_gaussian` field in the source,
called `pending_gaussian` in the specification). -/
structure Random where
  state : ℕ
  pending_gaussian : Option Float

/-- Construction `Random::new`: XOR the seed with the multiplier and mask to
48 bits; no gaussian value is cached. -/
def new (seed : ℕ) : Random :=
  ⟨(seed ^^^ A) &&& M, none⟩

/-- Reseeding `Random::set_seed`, defined in the source as `*self = Random::new(seed)`. -/
def set_seed (_r : Random) (seed : ℕ) : Random :=
  new seed

/-- Body of `Random::next` after its argument check: advance the state by a
wrapping multiply-add (`Wrapping<i64>`, i.e. modulo 2^64) masked to 48 bits,
and return the top `bits` bits of the new state. -/
def step (r : Random) (bits : ℕ) : ℕ × Random :=
  let st := ((r.state * A + C) % 2 ^ 64) &&& M
  (st >>> (48 - bits), { r with state := st })

/-- Method `Random::next`: returns up to 48 bits.  The `none` value models the
panic on `bits > 48`; the generator is returned untouched in that case. -/
def next (r : Random) (bits : ℕ) : Option ℕ × Random :=
  if 48 < bits then (none, r)
  else
    let p := step r bits
    (some p.1, p.2)

/-- Method `Random::next_u32`: `next(32)`, which always passes the bits check. -/
def next_u32 (r : Random) : ℕ × Random :=
  step r 32

/-- Inner loop of `Random::next_bytes` over one chunk: write `len` bytes of
`block`, least-significant byte first (`*item = block & 0xFF; block >>= 8`). -/
def write_block (block : ℕ) : ℕ → List ℕ
  | 0 => []
  | len + 1 => (block &&& 0xFF) :: write_block (block >>> 8) len

/-- Method `Random::next_bytes` on a buffer of length `n`, returned as the list
of bytes written: the buffer is processed in chunks of 4 (`chunks_mut(4)`), one
`next_u32` draw per chunk, a trailing chunk of `n % 4` bytes taking only the low
bytes of its draw. -/
def next_bytes (r : Random) : ℕ → List ℕ × Random
  | 0 => ([], r)
  | 1 =>
    let p := next_u32 r
    (write_block p.1 1, p.2)
  | 2 =>
    let p := next_u32 r
    (write_block p.1 2, p.2)
  | 3 =>
    let p := next_u32 r
    (write_block p.1 3, p.2)
  | (n + 4) =>
    let p := next_u32 r
    let q := next_bytes p.2 n
    (write_block p.1 4 ++ q.1, q.2)

/-- Sequence of `k` successive `next_u32` draws together with the generator
state after them (used to state how many draws `next_bytes` consumes). -/
def next_u32_seq (r : Random) : ℕ → List ℕ × Random
  | 0 => ([], r)
  | k + 1 =>
    let p := next_u32 r
    let q := next_u32_seq p.2 k
    (p.1 :: q.1, q.2)

/-- Two's-complement reinterpretation of an exact integer as a signed 32-bit
value: how an `i32` expression that wraps reads out. -/
def wrap32 (z : ℤ) : ℤ :=
  (z + 2 ^ 31) % 2 ^ 32 - 2 ^ 31

/-- Power-of-two test on the unsigned reinterpretation of `max`
(`(max as u32).is_power_of_two()`), via the standard bit trick. -/
def is_power_of_two (n : ℕ) : Bool :=
  n != 0 && (n &&& (n - 1)) == 0

/-- Fast path of `Random::next_i32_bound` for a power-of-two `max` on one draw
`b`: `((max as u64).wrapping_mul(b)) >> 31`. -/
def fast_path_draw (max b : ℕ) : ℕ :=
  ((max * b) % 2 ^ 64) >>> 31

/-- One round of the general (rejection) path of `Random::next_i32_bound` on a
draw `bits`: `val = bits % max` (Rust truncated `%`), rejected (`none`) exactly
when `bits - val + (max - 1)` is negative under 32-bit wraparound. -/
def general_path_draw (max bits : ℤ) : Option ℤ :=
  let val := Int.tmod bits max
  if wrap32 (bits - val + (max - 1)) < 0 then none else some val

/-- Rejection loop of `Random::next_i32_bound`: draw `next(31)`, accept or
re-draw; `fuel` bounds the number of draws, `none` meaning fuel ran out. -/
def bound_loop (max : ℤ) : ℕ → Random → Option (ℤ × Random)
  | 0, _ => none
  | fuel + 1, r =>
    let p := step r 31
    match general_path_draw max (p.1 : ℤ) with
    | some val => some (val, p.2)
    | none => bound_loop max fuel p.2

/-- Method `Random::next_i32_bound`.  The outer `none` means the rejection loop
ran out of fuel (a model artifact); `some (none, r)` models the panic on
`max <= 0`, which happens before any state mutation; `some (some v, r')` is a
normal return. -/
def next_i32_bound (fuel : ℕ) (r : Random) (max : ℤ) : Option (Option ℤ × Random) :=
  if max ≤ 0 then some (none, r)
  else if is_power_of_two max.toNat then
    let p := step r 31
    some (some (fast_path_draw max.toNat p.1 : ℕ), p.2)
  else
    (bound_loop max fuel r).map (fun q => (some q.1, q.2))

/-- Division constant for `next_f64`: `(1u64 << 53) as f64`. -/
def F64_DIV : Float := Float.ofNat (1 <<< 53)

/-- Method `Random::next_f64`: a 26-bit draw then a 27-bit draw, combined as
`(high << 27) + low` with wrapping 64-bit addition (the sum is below 2^53, so
no wrap actually occurs), converted to `f64` and divided by 2^53. -/
def next_f64 (r : Random) : Float × Random :=
  let p := step r 26
  let q := step p.2 27
  (Float.ofNat (((p.1 <<< 27) + q.1) % 2 ^ 64) / F64_DIV, q.2)

/-- Candidate closure inside `Random::next_gaussian_pair`: two uniform doubles
mapped into the square `[-1, 1)`, paired with the squared norm `s`. -/
def next_candidate (r : Random) : ((Float × Float) × Float) × Random :=
  let p := next_f64 r
  let q := next_f64 p.2
  let v : Float × Float := (2.0 * p.1 - 1.0, 2.0 * q.1 - 1.0)
  ((v, v.1 * v.1 + v.2 * v.2), q.2)

/-- Method `Random::next_gaussian_pair` (Box-Muller, polar variant): draw
candidates until `s < 1.0` and `s ≠ 0.0`, then scale by
`sqrt((ln s / s) * -2)`.  The `fuel` parameter bounds the number of candidate
draws, `none` meaning it ran out (termination of the real loop depends on
floating-point behaviour and is not modelled). -/
def next_gaussian_pair : ℕ → Random → Option ((Float × Float) × Random)
  | 0, _ => none
  | fuel + 1, r =>
    let c := next_candidate r
    if c.1.2 ≥ 1.0 ∨ c.1.2 == 0.0 then next_gaussian_pair fuel c.2
    else
      let s := c.1.2
      let v := c.1.1
      let multiplier := Float.sqrt ((Float.log s / s) * (-2.0))
      some ((v.1 * multiplier, v.2 * multiplier), c.2)

/-- Method `Random::next_gaussian`: consume and return the cached value if one
is pending (clearing the cache, touching nothing else), otherwise generate a
pair, return its first element and cache the second. -/
def next_gaussian (fuel : ℕ) (r : Random) : Option (Float × Random) :=
  match r.pending_gaussian with
  | some pending => some (pending, { r with pending_gaussian := none })
  | none =>
    (next_gaussian_pair fuel r).map fun p =>
      (p.1.1, { p.2 with pending_gaussian := some p.1.2 })

-- Basic lemmas about masking and the state advance.

theorem and_M_eq_mod (x : ℕ) : x &&& M = x % 2 ^ 48 := by
  simpa [M] using Nat.and_pow_two_sub_one_eq_mod x 48

theorem step_state (r : Random) (bits : ℕ) :
    ((step r bits).2).state = (r.state * A + C) % 2 ^ 48 := by
  simp only [step, and_M_eq_mod]
  exact Nat.mod_mod_of_dvd _ (by norm_num)

theorem step_state_lt (r : Random) (bits : ℕ) :
    ((step r bits).2).state < 2 ^ 48 := by
  rw [step_state]
  exact Nat.mod_lt _ (by norm_num)

theorem step_pending (r : Random) (bits : ℕ) :
    ((step r bits).2).pending_gaussian = r.pending_gaussian := rfl

theorem step_val (r : Random) (bits : ℕ) :
    (step r bits).1 = ((r.state * A + C) % 2 ^ 48) >>> (48 - bits) := by
  have h : (step r bits).1 = ((step r bits).2).state >>> (48 - bits) := rfl
  rw [h, step_state]

theorem step_val_lt (r : Random) {bits : ℕ} (h : bits ≤ 48) :
    (step r bits).1 < 2 ^ bits := by
  rw [step_val, Nat.shiftRight_eq_div_pow]
  have hpow : (0:ℕ) < 2 ^ (48 - bits) := Nat.pos_pow_of_pos _ (by norm_num)
  rw [Nat.div_lt_iff_lt_mul hpow, ← Nat.pow_add]
  have : bits + (48 - bits) = 48 := by omega
  rw [this]
  exact Nat.mod_lt _ (by norm_num)

theorem next_eq_step (r : Random) {bits : ℕ} (h : bits ≤ 48) :
    next r bits = (some (step r bits).1, (step r bits).2) := by
  simp [next, Nat.not_lt.mpr h]

theorem step_eq (r : Random) (bits : ℕ) :
    step r bits =
      (((r.state * A + C) % 2 ^ 48) >>> (48 - bits),
        ⟨(r.state * A + C) % 2 ^ 48, r.pending_gaussian⟩) := by
  obtain ⟨st, pg⟩ := r
  simp only [step, and_M_eq_mod]
  rw [Nat.mod_mod_of_dvd _ (by norm_num : (2:ℕ) ^ 48 ∣ 2 ^ 64)]

/-- Claim C1: for every generator state and `1 ≤ bits ≤ 48`, `next` updates the
state to `(state * 0x5DEECE66D + 11) mod 2^48` (the wrapping 64-bit multiply-add
followed by the 48-bit mask computes exactly this) and returns the new state
shifted right by `48 - bits`, an unsigned value strictly below `2^bits`. -/
theorem next_spec (r : Random) (bits : ℕ) (h1 : 1 ≤ bits) (h2 : bits ≤ 48) :
    next r bits =
      (some (((r.state * 0x5DEECE66D + 11) % 2 ^ 48) >>> (48 - bits)),
        ⟨(r.state * 0x5DEECE66D + 11) % 2 ^ 48, r.pending_gaussian⟩) ∧
    ((r.state * 0x5DEECE66D + 11) % 2 ^ 48) >>> (48 - bits) < 2 ^ bits := by
  have hA : A = 0x5DEECE66D := rfl
  have hC : C = 11 := rfl
  constructor
  · rw [next_eq_step r h2, step_eq, hA, hC]
  · have h := step_val_lt r h2
    rwa [step_val, hA, hC] at h

/-- Concrete instance of claim C1 at `bits = 16` on the zero-state generator. -/
theorem next_spec_witness :
    (1 ≤ 16 ∧ 16 ≤ 48) ∧
    (next ⟨0, none⟩ 16 =
      (some (((0 * 0x5DEECE66D + 11) % 2 ^ 48) >>> (48 - 16)),
        ⟨(0 * 0x5DEECE66D + 11) % 2 ^ 48, none⟩) ∧
      ((0 * 0x5DEECE66D + 11) % 2 ^ 48) >>> (48 - 16) < 2 ^ 16) :=
  ⟨⟨by norm_num, by norm_num⟩, next_spec ⟨0, none⟩ 16 (by norm_num) (by norm_num)⟩

/-- Claim C10: calling `next` with `bits = 0` (outside the documented domain)
does not signal the invalid-argument condition: it advances the state exactly
once, like a valid call, and returns 0. -/
theorem next_zero_bits (r : Random) :
    next r 0 = (some 0, ⟨(r.state * A + C) % 2 ^ 48, r.pending_gaussian⟩) := by
  have h0 : ((r.state * A + C) % 2 ^ 48) >>> (48 - 0) = 0 := by
    rw [Nat.shiftRight_eq_div_pow]
    exact Nat.div_eq_of_lt (by simpa using Nat.mod_lt (r.state * A + C) (by norm_num))
  rw [next_eq_step r (by norm_num), step_eq, h0]

/-- Claim C7: `new` produces the state `(seed XOR 0x5DEECE66D) mod 2^48` with an
empty gaussian cache, and `set_seed` on any prior generator is exactly the
generator `new` builds, so every subsequent call behaves as on a fresh one. -/
theorem new_set_seed_spec (seed : ℕ) (r : Random) :
    (new seed).state = (seed ^^^ 0x5DEECE66D) % 2 ^ 48 ∧
    (new seed).pending_gaussian = none ∧
    set_seed r seed = new seed := by
  refine ⟨?_, rfl, rfl⟩
  have hA : A = 0x5DEECE66D := rfl
  simp [new, and_M_eq_mod, hA]

/-- Claim C4: `next` signals the invalid-argument condition when `bits > 48`,
and `next_i32_bound` when `max ≤ 0`; in both cases the operation aborts before
any state mutation, returning the generator (state and gaussian cache)
unchanged. -/
theorem invalid_argument_spec (r : Random) (bits fuel : ℕ) (max : ℤ)
    (hb : 48 < bits) (hm : max ≤ 0) :
    next r bits = (none, r) ∧ next_i32_bound fuel r max = some (none, r) := by
  constructor
  · simp [next, hb]
  · simp [next_i32_bound, hm]

/-- Concrete instance of claim C4 at `bits = 49`, `max = 0`. -/
theorem invalid_argument_spec_witness :
    (48 < 49 ∧ (0:ℤ) ≤ 0) ∧
    (next ⟨1, none⟩ 49 = (none, ⟨1, none⟩) ∧
      next_i32_bound 5 ⟨1, none⟩ 0 = some (none, ⟨1, none⟩)) :=
  ⟨⟨by norm_num, le_refl 0⟩, invalid_argument_spec ⟨1, none⟩ 49 5 0 (by norm_num) (le_refl 0)⟩

theorem general_path_draw_range {max bits val : ℤ} (hmax : 0 < max) (hbits : 0 ≤ bits)
    (h : general_path_draw max bits = some val) : 0 ≤ val ∧ val < max := by
  simp only [general_path_draw] at h
  split at h
  · exact absurd h (by simp)
  · obtain rfl : Int.tmod bits max = val := by simpa using h
    exact ⟨Int.tmod_nonneg max hbits, Int.tmod_lt_of_pos bits hmax⟩

theorem bound_loop_range {max : ℤ} (hmax : 0 < max) :
    ∀ (fuel : ℕ) (r : Random) (q : ℤ × Random),
      bound_loop max fuel r = some q → 0 ≤ q.1 ∧ q.1 < max := by
  intro fuel
  induction fuel with
  | zero => intro r q h; simp [bound_loop] at h
  | succ n ih =>
    intro r q h
    simp only [bound_loop] at h
    cases hg : general_path_draw max (((step r 31).1 : ℕ) : ℤ) with
    | some val =>
      rw [hg] at h
      have hq : val = q.1 := by
        cases h
        rfl
      rw [← hq]
      exact general_path_draw_range hmax (Int.natCast_nonneg _) hg
    | none =>
      rw [hg] at h
      exact ih _ _ h

theorem fast_path_draw_lt {m b : ℕ} (hm : 0 < m) (hm31 : m < 2 ^ 31)
    (hb : b < 2 ^ 31) : fast_path_draw m b < m := by
  unfold fast_path_draw
  have hprod : m * b < 2 ^ 64 := by
    calc m * b < 2 ^ 31 * 2 ^ 31 := Nat.mul_lt_mul_of_lt_of_lt hm31 hb
    _ < 2 ^ 64 := by norm_num
  rw [Nat.mod_eq_of_lt hprod, Nat.shiftRight_eq_div_pow]
  rw [Nat.div_lt_iff_lt_mul (by norm_num : (0:ℕ) < 2 ^ 31)]
  exact Nat.mul_lt_mul_of_le_of_lt (Nat.le_refl m) hb hm

/-- Claim C2: for every `max > 0` (within the `i32` range) and every generator
state, a value returned by `next_i32_bound` lies in `[0, max)`, on both the
power-of-two fast path and the general rejection path (whose re-draw condition
is the 32-bit wraparound sign test encoded in `general_path_draw`). -/
theorem next_i32_bound_range (fuel : ℕ) (r : Random) (max v : ℤ) (r' : Random)
    (h1 : 0 < max) (h2 : max < 2 ^ 31)
    (h3 : next_i32_bound fuel r max = some (some v, r')) :
    0 ≤ v ∧ v < max := by
  rw [next_i32_bound, if_neg (by omega)] at h3
  by_cases hp : is_power_of_two max.toNat
  · rw [if_pos hp] at h3
    have hv : ((fast_path_draw max.toNat (step r 31).1 : ℕ) : ℤ) = v := by
      have := h3
      simp only [Option.some.injEq, Prod.mk.injEq] at this
      exact this.1
    have hm0 : 0 < max.toNat := by
      have : max.toNat ≠ 0 := by
        simp only [is_power_of_two, Bool.and_eq_true, bne_iff_ne, ne_eq] at hp
        exact hp.1
      omega
    have hm31 : max.toNat < 2 ^ 31 := by omega
    have hb : (step r 31).1 < 2 ^ 31 := step_val_lt r (by norm_num)
    have hlt := fast_path_draw_lt hm0 hm31 hb
    constructor
    · rw [← hv]; exact Int.natCast_nonneg _
    · rw [← hv]
      calc ((fast_path_draw max.toNat (step r 31).1 : ℕ) : ℤ)
          < (max.toNat : ℤ) := by exact_mod_cast hlt
        _ = max := Int.toNat_of_nonneg (le_of_lt h1)
  · rw [if_neg hp] at h3
    cases hb : bound_loop max fuel r with
    | none =>
      rw [hb] at h3
      exact absurd h3 (by simp)
    | some q =>
      rw [hb] at h3
      have hq : q.1 = v := by
        have h4 := h3
        simp only [Option.map_some', Option.some.injEq, Prod.mk.injEq] at h4
        exact h4.1
      rw [← hq]
      exact bound_loop_range h1 fuel r q hb

/-- Concrete instance of claim C2 at `max = 3` on the zero-state generator:
the first draw is accepted and the result is 0. -/
theorem next_i32_bound_range_witness :
    ((0:ℤ) < 3 ∧ (3:ℤ) < 2 ^ 31 ∧
      next_i32_bound 1 ⟨0, none⟩ 3 = some (some 0, ⟨11, none⟩)) ∧
    ((0:ℤ) ≤ 0 ∧ (0:ℤ) < 3) :=
  ⟨⟨by norm_num, by norm_num, rfl⟩,
    next_i32_bound_range 1 ⟨0, none⟩ 3 0 ⟨11, none⟩ (by norm_num) (by norm_num) rfl⟩

theorem masked_iff (x : ℕ) : x >>> 48 = 0 ↔ x < 2 ^ 48 := by
  rw [Nat.shiftRight_eq_div_pow]
  exact Nat.div_eq_zero_iff (by norm_num)

theorem new_state_lt (seed : ℕ) : (new seed).state < 2 ^ 48 := by
  have h : (new seed).state = (seed ^^^ A) % 2 ^ 48 := by
    simp [new, and_M_eq_mod]
  rw [h]
  exact Nat.mod_lt _ (by norm_num)

theorem next_bytes_state_lt :
    ∀ (n : ℕ) (r : Random), r.state < 2 ^ 48 → ((next_bytes r n).2).state < 2 ^ 48
  | 0, _, h => h
  | 1, r, _ => step_state_lt r 32
  | 2, r, _ => step_state_lt r 32
  | 3, r, _ => step_state_lt r 32
  | n + 4, r, _ => next_bytes_state_lt n (next_u32 r).2 (step_state_lt r 32)

theorem bound_loop_state_lt (max : ℤ) :
    ∀ (fuel : ℕ) (r : Random) (q : ℤ × Random),
      bound_loop max fuel r = some q → (q.2).state < 2 ^ 48 := by
  intro fuel
  induction fuel with
  | zero => intro r q h; simp [bound_loop] at h
  | succ n ih =>
    intro r q h
    simp only [bound_loop] at h
    cases hg : general_path_draw max (((step r 31).1 : ℕ) : ℤ) with
    | some val =>
      rw [hg] at h
      cases h
      exact step_state_lt r 31
    | none =>
      rw [hg] at h
      exact ih _ _ h

theorem next_i32_bound_state_lt (fuel : ℕ) (r : Random) (max : ℤ)
    (h : r.state < 2 ^ 48) :
    ∀ q ∈ next_i32_bound fuel r max, (q.2).state < 2 ^ 48 := by
  intro q hq
  rw [Option.mem_def, next_i32_bound] at hq
  split at hq
  · cases hq
    exact h
  · split at hq
    · cases hq
      exact step_state_lt r 31
    · cases hb : bound_loop max fuel r with
      | none =>
        rw [hb] at hq
        exact absurd hq (by simp)
      | some p =>
        rw [hb] at hq
        simp only [Option.map_some', Option.some.injEq] at hq
        rw [← hq]
        exact bound_loop_state_lt max fuel r p hb

theorem next_candidate_state_lt (r : Random) : ((next_candidate r).2).state < 2 ^ 48 := by
  have h : (next_candidate r).2 = (step (step (step (step r 26).2 27).2 26).2 27).2 := rfl
  rw [h]
  exact step_state_lt _ 27

theorem next_gaussian_pair_state_lt :
    ∀ (fuel : ℕ) (r : Random) (p : (Float × Float) × Random),
      next_gaussian_pair fuel r = some p → (p.2).state < 2 ^ 48 := by
  intro fuel
  induction fuel with
  | zero => intro r p h; simp [next_gaussian_pair] at h
  | succ n ih =>
    intro r p h
    simp only [next_gaussian_pair] at h
    split at h
    · exact ih _ _ h
    · cases h
      exact next_candidate_state_lt r

theorem next_gaussian_state_lt (fuel : ℕ) (r : Random) (h : r.state < 2 ^ 48) :
    ∀ p ∈ next_gaussian fuel r, (p.2).state < 2 ^ 48 := by
  intro p hp
  rw [Option.mem_def] at hp
  obtain ⟨st, pend⟩ := r
  cases pend with
  | some v =>
    simp only [next_gaussian] at hp
    cases hp
    exact h
  | none =>
    simp only [next_gaussian] at hp
    cases hg : next_gaussian_pair fuel ⟨st, none⟩ with
    | none =>
      rw [hg] at hp
      exact absurd hp (by simp)
    | some q =>
      rw [hg] at hp
      simp only [Option.map_some', Option.some.injEq] at hp
      rw [← hp]
      exact next_gaussian_pair_state_lt fuel ⟨st, none⟩ q hg

/-- Claim C5: the upper 16 bits of `state` are zero after construction via
`new` and remain zero after every operation on the generator (the state is
always masked to 48 bits). -/
theorem state_masked (seed s2 bits n fuel fuel2 : ℕ) (r : Random) (max : ℤ)
    (h : r.state >>> 48 = 0) :
    (new seed).state >>> 48 = 0 ∧
    (set_seed r s2).state >>> 48 = 0 ∧
    ((next r bits).2).state >>> 48 = 0 ∧
    ((next_u32 r).2).state >>> 48 = 0 ∧
    ((next_bytes r n).2).state >>> 48 = 0 ∧
    (∀ q ∈ next_i32_bound fuel r max, (q.2).state >>> 48 = 0) ∧
    (∀ p ∈ next_gaussian fuel2 r, (p.2).state >>> 48 = 0) := by
  rw [masked_iff] at h
  refine ⟨(masked_iff _).mpr (new_state_lt seed), (masked_iff _).mpr (new_state_lt s2),
    ?_, (masked_iff _).mpr (step_state_lt r 32),
    (masked_iff _).mpr (next_bytes_state_lt n r h), ?_, ?_⟩
  · rw [masked_iff]
    by_cases hb : 48 < bits
    · simpa [next, hb] using h
    · rw [next_eq_step r (Nat.not_lt.mp hb)]
      exact step_state_lt r bits
  · intro q hq
    rw [masked_iff]
    exact next_i32_bound_state_lt fuel r max h q hq
  · intro p hp
    rw [masked_iff]
    exact next_gaussian_state_lt fuel2 r h p hp

/-- Concrete instance of claim C5 on the generator with state 0. -/
theorem state_masked_witness :
    ((Random.mk 0 none).state >>> 48 = 0) ∧
    ((new 0).state >>> 48 = 0 ∧
     (set_seed ⟨0, none⟩ 0).state >>> 48 = 0 ∧
     ((next ⟨0, none⟩ 0).2).state >>> 48 = 0 ∧
     ((next_u32 ⟨0, none⟩).2).state >>> 48 = 0 ∧
     ((next_bytes ⟨0, none⟩ 0).2).state >>> 48 = 0 ∧
     (∀ q ∈ next_i32_bound 1 ⟨0, none⟩ 1, (q.2).state >>> 48 = 0) ∧
     (∀ p ∈ next_gaussian 1 ⟨0, none⟩, (p.2).state >>> 48 = 0)) :=
  ⟨rfl, state_masked 0 0 0 0 1 1 ⟨0, none⟩ 1 rfl⟩

/-- Claim C6: when a value is cached, `next_gaussian` returns it, clears the
cache and leaves the LCG state untouched (zero underlying `next` calls); when
the cache is empty, it is exactly the Box-Muller pair computation returning the
pair's first value with the second stored as pending, so two consecutive calls
consume exactly one generated pair (the second call performing no draws). -/
theorem next_gaussian_spec (st : ℕ) (pend : Option Float) (v : Float) (fuel fuel2 : ℕ)
    (h : pend = some v) :
    next_gaussian fuel ⟨st, pend⟩ = some (v, ⟨st, none⟩) ∧
    next_gaussian fuel ⟨st, none⟩ =
      (next_gaussian_pair fuel ⟨st, none⟩).map
        (fun p => (p.1.1, ⟨(p.2).state, some p.1.2⟩)) ∧
    (next_gaussian fuel ⟨st, none⟩).bind
        (fun q => (next_gaussian fuel2 q.2).map (fun w => (q.1, w.1, w.2))) =
      (next_gaussian_pair fuel ⟨st, none⟩).map
        (fun p => (p.1.1, p.1.2, ⟨(p.2).state, none⟩)) := by
  subst h
  refine ⟨rfl, rfl, ?_⟩
  cases hg : next_gaussian_pair fuel ⟨st, none⟩ with
  | none => simp [next_gaussian, hg]
  | some p =>
    have h1 : next_gaussian fuel ⟨st, none⟩ = some (p.1.1, ⟨(p.2).state, some p.1.2⟩) := by
      simp [next_gaussian, hg]
    rw [h1]
    rfl

/-- Concrete instance of claim C6 with cached value 1.5 and state 7. -/
theorem next_gaussian_spec_witness :
    (some (1.5 : Float) = some (1.5 : Float)) ∧
    (next_gaussian 1 ⟨7, some (1.5 : Float)⟩ = some (1.5, ⟨7, none⟩) ∧
     next_gaussian 1 ⟨7, none⟩ =
       (next_gaussian_pair 1 ⟨7, none⟩).map
         (fun p => (p.1.1, ⟨(p.2).state, some p.1.2⟩)) ∧
     (next_gaussian 1 ⟨7, none⟩).bind
         (fun q => (next_gaussian 1 q.2).map (fun w => (q.1, w.1, w.2))) =
       (next_gaussian_pair 1 ⟨7, none⟩).map
         (fun p => (p.1.1, p.1.2, ⟨(p.2).state, none⟩))) :=
  ⟨rfl, next_gaussian_spec 7 (some 1.5) 1.5 1 1 rfl⟩

/-- Claim C8: filling an `n`-byte buffer consumes exactly `⌈n/4⌉` successive
`next_u32` draws, each written least-significant byte first into its chunk of
up to 4 bytes; the final partial chunk keeps only the low bytes of its draw
(the `take n` discards the unused high bytes of the last draw). -/
theorem next_bytes_spec : ∀ (n : ℕ) (r : Random),
    next_bytes r n =
      (List.take n
        (((next_u32_seq r ((n + 3) / 4)).1.map (fun b => write_block b 4)).flatten),
       (next_u32_seq r ((n + 3) / 4)).2)
  | 0, _ => rfl
  | 1, _ => rfl
  | 2, _ => rfl
  | 3, _ => rfl
  | n + 4, r => by
    have ih := next_bytes_spec n (next_u32 r).2
    have h4 : (n + 4 + 3) / 4 = (n + 3) / 4 + 1 := by omega
    simp only [next_bytes]
    rw [h4]
    simp only [next_u32_seq]
    rw [ih]
    simp only [List.map_cons, List.flatten_cons]
    rw [Prod.mk.injEq]
    refine ⟨?_, rfl⟩
    have hlen : n + 4 = (write_block (next_u32 r).1 4).length + n := by
      have h5 : (write_block (next_u32 r).1 4).length = 4 := rfl
      omega
    rw [hlen, List.take_append]

theorem wrap32_eq_self {z : ℤ} (h0 : 0 ≤ z) (h31 : z < 2 ^ 31) : wrap32 z = z := by
  have e31 : (2:ℤ) ^ 31 = 2147483648 := by norm_num
  have e32 : (2:ℤ) ^ 32 = 4294967296 := by norm_num
  rw [e31] at h31
  unfold wrap32
  rw [e31, e32, Int.emod_eq_of_lt (by omega) (by omega)]
  omega

theorem card_filter_div (d m v : ℕ) (hd : 0 < d) (hv : v < m) :
    ((Finset.range (d * m)).filter (fun b => b / d = v)).card = d := by
  have hset : (Finset.range (d * m)).filter (fun b => b / d = v) =
      Finset.Ico (v * d) (v * d + d) := by
    ext b
    simp only [Finset.mem_filter, Finset.mem_range, Finset.mem_Ico]
    constructor
    · rintro ⟨hb, hdiv⟩
      have h3 : b < (v + 1) * d := (Nat.div_lt_iff_lt_mul hd).mp (by omega)
      rw [add_mul, one_mul] at h3
      refine ⟨?_, h3⟩
      rw [← hdiv]
      exact Nat.div_mul_le_self b d
    · rintro ⟨h1, h2⟩
      have h6 : b < (v + 1) * d := by rw [add_mul, one_mul]; omega
      have h5 : (v + 1) * d ≤ m * d := Nat.mul_le_mul_right d (by omega)
      refine ⟨?_, Nat.div_eq_of_lt_le h1 h6⟩
      calc b < (v + 1) * d := h6
        _ ≤ m * d := h5
        _ = d * m := Nat.mul_comm m d
  rw [hset, Nat.card_Ico]
  omega

theorem card_filter_mod (q m v : ℕ) (hq : 0 < q) (hv : v < q) :
    ((Finset.range (q * m)).filter (fun b => b % q = v)).card = m := by
  have hset : (Finset.range (q * m)).filter (fun b => b % q = v) =
      (Finset.range m).image (fun j => j * q + v) := by
    ext b
    simp only [Finset.mem_filter, Finset.mem_range, Finset.mem_image]
    constructor
    · rintro ⟨hb, hmod⟩
      refine ⟨b / q, Nat.div_lt_of_lt_mul hb, ?_⟩
      have hd := Nat.div_add_mod b q
      rw [hmod, Nat.mul_comm] at hd
      exact hd
    · rintro ⟨j, hj, rfl⟩
      constructor
      · have h6 : j * q + v < (j + 1) * q := by rw [add_mul, one_mul]; omega
        have h5 : (j + 1) * q ≤ m * q := Nat.mul_le_mul_right q (by omega)
        calc j * q + v < (j + 1) * q := h6
          _ ≤ m * q := h5
          _ = q * m := Nat.mul_comm m q
      · rw [Nat.mul_comm j q, Nat.mul_add_mod, Nat.mod_eq_of_lt hv]
  rw [hset, Finset.card_image_of_injective _ ?_, Finset.card_range]
  intro a b hab
  simp only at hab
  have : a * q = b * q := by omega
  exact Nat.eq_of_mul_eq_mul_right hq this

theorem pow_two_no_reject (k : ℕ) (hk : k ≤ 30) (b : ℕ) (hb : b < 2 ^ 31) :
    general_path_draw ((2:ℤ) ^ k) (b : ℤ) = some ((b % 2 ^ k : ℕ) : ℤ) := by
  have hcast : ((2:ℤ) ^ k) = ((2 ^ k : ℕ) : ℤ) := by push_cast; ring
  have htmod : Int.tmod (b : ℤ) ((2:ℤ) ^ k) = ((b % 2 ^ k : ℕ) : ℤ) := by
    rw [hcast, ← Int.ofNat_tmod]
  have hdm := Nat.div_add_mod b (2 ^ k)
  have hK1 : 1 ≤ (2:ℕ) ^ k := Nat.one_le_two_pow
  have hQ : b / 2 ^ k < 2 ^ (31 - k) := by
    apply Nat.div_lt_of_lt_mul
    rw [← pow_add]
    have h31 : k + (31 - k) = 31 := by omega
    rw [h31]
    exact hb
  have h2 : 2 ^ k * (b / 2 ^ k) + 2 ^ k ≤ 2 ^ 31 := by
    have h5 : 2 ^ k * (b / 2 ^ k + 1) ≤ 2 ^ k * 2 ^ (31 - k) := Nat.mul_le_mul_left _ hQ
    rw [Nat.mul_add, Nat.mul_one, ← pow_add] at h5
    have h31 : k + (31 - k) = 31 := by omega
    rw [h31] at h5
    exact h5
  have e31n : (2:ℕ) ^ 31 = 2147483648 := by norm_num
  rw [e31n] at h2
  have hnc : ¬ wrap32 ((b:ℤ) - ((b % 2 ^ k : ℕ) : ℤ) + ((2:ℤ) ^ k - 1)) < 0 := by
    set Mq := 2 ^ k * (b / 2 ^ k) with hM
    have hz0 : (0:ℤ) ≤ (b:ℤ) - ((b % 2 ^ k : ℕ) : ℤ) + ((2:ℤ) ^ k - 1) := by
      rw [hcast]
      omega
    have hz31 : (b:ℤ) - ((b % 2 ^ k : ℕ) : ℤ) + ((2:ℤ) ^ k - 1) < 2 ^ 31 := by
      rw [hcast]
      have e31z : (2:ℤ) ^ 31 = 2147483648 := by norm_num
      rw [e31z]
      omega
    rw [wrap32_eq_self hz0 hz31]
    exact not_lt.mpr hz0
  simp only [general_path_draw, htmod]
  rw [if_neg hnc]

theorem fast_path_draw_pow_eq (k : ℕ) (hk : k ≤ 30) (b : ℕ) (hb : b < 2 ^ 31) :
    fast_path_draw (2 ^ k) b = b / 2 ^ (31 - k) := by
  unfold fast_path_draw
  have hprod : 2 ^ k * b < 2 ^ 64 := by
    calc 2 ^ k * b ≤ 2 ^ 30 * b := Nat.mul_le_mul_right b (Nat.pow_le_pow_right (by norm_num) hk)
      _ < 2 ^ 30 * 2 ^ 31 := Nat.mul_lt_mul_of_le_of_lt (Nat.le_refl _) hb (by norm_num)
      _ < 2 ^ 64 := by norm_num
  rw [Nat.mod_eq_of_lt hprod, Nat.shiftRight_eq_div_pow]
  have h31 : (2:ℕ) ^ 31 = 2 ^ k * 2 ^ (31 - k) := by
    rw [← pow_add, show k + (31 - k) = 31 from by omega]
  rw [h31, Nat.mul_div_mul_left _ _ (Nat.pos_pow_of_pos k (by norm_num))]

/-- Counterexample to claim C3 as stated: for `max = 2` (a power of two) and
the same single 31-bit draw `b = next(31) = 1` obtained from a concrete
generator state, the fast-path formula `(max * b) >> 31` yields 0 while the
brute-force modulo-rejection computation accepts the draw and yields 1. -/
theorem fast_path_counterexample :
    is_power_of_two 2 = true ∧
    (step ⟨27428551404201, none⟩ 31).1 = 1 ∧
    fast_path_draw 2 (step ⟨27428551404201, none⟩ 31).1 = 0 ∧
    general_path_draw 2 (((step ⟨27428551404201, none⟩ 31).1 : ℕ) : ℤ) = some 1 ∧
    (0 : ℕ) ≠ 1 :=
  ⟨rfl, rfl, rfl, rfl, by norm_num⟩

/-- Claim C3 (amended): for `max = 2^k` a power of two below `2^31`, the
general path's rejection test accepts every 31-bit draw (so the brute-force
modulo-rejection computation is `b mod 2^k`), and the fast-path formula agrees
with it in distribution over the 2^31 equally likely draws (every value below
`max` is produced by exactly `2^(31-k)` draws on each side); they do not agree
pointwise on the same draw, the fast path keeping the top `k` bits and the
modulo computation the low `k` bits. -/
theorem pow_two_paths_agree (k : ℕ) (hk : k ≤ 30) :
    (∀ b : ℕ, b < 2 ^ 31 →
        general_path_draw ((2:ℤ) ^ k) (b : ℤ) = some ((b % 2 ^ k : ℕ) : ℤ)) ∧
    (∀ v : ℕ, v < 2 ^ k →
        ((Finset.range (2 ^ 31)).filter (fun b => fast_path_draw (2 ^ k) b = v)).card =
        ((Finset.range (2 ^ 31)).filter
            (fun b : ℕ => general_path_draw ((2:ℤ) ^ k) (b : ℤ) = some ((v : ℤ)))).card) := by
  constructor
  · intro b hb
    exact pow_two_no_reject k hk b hb
  · intro v hv
    have hfast : ∀ b ∈ Finset.range (2 ^ 31),
        (fast_path_draw (2 ^ k) b = v ↔ b / 2 ^ (31 - k) = v) := by
      intro b hb
      rw [Finset.mem_range] at hb
      rw [fast_path_draw_pow_eq k hk b hb]
    have hgen : ∀ b ∈ Finset.range (2 ^ 31),
        ((general_path_draw ((2:ℤ) ^ k) (b : ℤ) = some ((v : ℤ))) ↔ b % 2 ^ k = v) := by
      intro b hb
      rw [Finset.mem_range] at hb
      rw [pow_two_no_reject k hk b hb]
      constructor
      · intro h
        have h2 : ((b % 2 ^ k : ℕ) : ℤ) = (v : ℤ) := by simpa using h
        exact_mod_cast h2
      · intro h
        rw [h]
    rw [Finset.filter_congr hfast, Finset.filter_congr hgen]
    have c1 : ((Finset.range (2 ^ 31)).filter (fun b => b / 2 ^ (31 - k) = v)).card =
        2 ^ (31 - k) := by
      have e1 : (2:ℕ) ^ 31 = 2 ^ (31 - k) * 2 ^ k := by
        rw [← pow_add, show 31 - k + k = 31 from by omega]
      rw [e1]
      exact card_filter_div _ _ v (Nat.pos_pow_of_pos _ (by norm_num)) hv
    have c2 : ((Finset.range (2 ^ 31)).filter (fun b => b % 2 ^ k = v)).card =
        2 ^ (31 - k) := by
      have e2 : (2:ℕ) ^ 31 = 2 ^ k * 2 ^ (31 - k) := by
        rw [← pow_add, show k + (31 - k) = 31 from by omega]
      rw [e2]
      exact card_filter_mod _ _ v (Nat.pos_pow_of_pos _ (by norm_num)) hv
    rw [c1, c2]

/-- Concrete instance of amended claim C3 at `k = 1` (`max = 2`). -/
theorem pow_two_paths_agree_witness :
    1 ≤ 30 ∧
    ((∀ b : ℕ, b < 2 ^ 31 →
        general_path_draw ((2:ℤ) ^ 1) (b : ℤ) = some ((b % 2 ^ 1 : ℕ) : ℤ)) ∧
     (∀ v : ℕ, v < 2 ^ 1 →
        ((Finset.range (2 ^ 31)).filter (fun b => fast_path_draw (2 ^ 1) b = v)).card =
        ((Finset.range (2 ^ 31)).filter
            (fun b : ℕ => general_path_draw ((2:ℤ) ^ 1) (b : ℤ) = some ((v : ℤ)))).card)) :=
  ⟨by norm_num, pow_two_paths_agree 1 (by norm_num)⟩

-- Termination of the rejection loop.  The LCG map on the 48-bit state space
-- has full period 2^48 (Hull-Dobell: the increment 11 is odd and the
-- multiplier is 1 mod 4), so every orbit visits a state below 2^17, whose
-- 31-bit draw is 0 and is always accepted.  This settles termination of the
-- rejection loop from every masked state; the Box-Muller loop's guard is
-- floating-point and out of reach of this embedding.

/-- State advance map of the LCG on the 48-bit state space. -/
def lcg (s : ℕ) : ℕ := (s * A + C) % 2 ^ 48

/-- Geometric sum `1 + A + ... + A^(n-1)` of powers of the multiplier. -/
def G (n : ℕ) : ℕ := ∑ i ∈ Finset.range n, A ^ i

theorem step_state_lcg (r : Random) (bits : ℕ) :
    ((step r bits).2).state = lcg r.state :=
  step_state r bits

theorem lcg_lt (s : ℕ) : lcg s < 2 ^ 48 :=
  Nat.mod_lt _ (by norm_num)

theorem lcg_iterate_lt (s : ℕ) (hs : s < 2 ^ 48) : ∀ i, lcg^[i] s < 2 ^ 48
  | 0 => hs
  | i + 1 => by
    rw [Function.iterate_succ_apply']
    exact lcg_lt _

theorem G_succ (n : ℕ) : G (n + 1) = A * G n + 1 := by
  unfold G
  exact geom_sum_succ

theorem lcg_iterate_modEq (s : ℕ) :
    ∀ n, lcg^[n] s ≡ A ^ n * s + C * G n [MOD 2 ^ 48] := by
  intro n
  induction n with
  | zero =>
    simp only [Function.iterate_zero_apply, pow_zero, one_mul, G,
      Finset.sum_range_zero, mul_zero, add_zero]
    rfl
  | succ n ih =>
    rw [Function.iterate_succ_apply']
    have h1 : lcg (lcg^[n] s) ≡ lcg^[n] s * A + C [MOD 2 ^ 48] :=
      Nat.mod_modEq _ _
    have h2 : lcg^[n] s * A + C ≡ (A ^ n * s + C * G n) * A + C [MOD 2 ^ 48] :=
      (ih.mul_right A).add_right C
    have h3 : (A ^ n * s + C * G n) * A + C = A ^ (n + 1) * s + C * G (n + 1) := by
      rw [G_succ]
      ring
    rw [h3] at h2
    exact h1.trans h2

theorem G_mod_two : ∀ n, G n % 2 = n % 2 := by
  intro n
  induction n with
  | zero => simp [G]
  | succ n ih =>
    rw [G_succ]
    have hA : A % 2 = 1 := by norm_num [A]
    have h1 : A * G n % 2 = G n % 2 := by
      rw [Nat.mul_mod, hA, one_mul]
      exact Nat.mod_mod_of_dvd _ (dvd_refl 2)
    omega

theorem G_two_mul (m : ℕ) : G (2 * m) = G m * (1 + A ^ m) := by
  unfold G
  rw [two_mul, Finset.sum_range_add]
  have h : ∑ i ∈ Finset.range m, A ^ (m + i) = A ^ m * ∑ i ∈ Finset.range m, A ^ i := by
    rw [Finset.mul_sum]
    apply Finset.sum_congr rfl
    intro i _
    rw [pow_add]
  rw [h]
  ring

theorem G_two_pow_mul : ∀ (k m : ℕ), m % 2 = 1 → ∃ u, u % 2 = 1 ∧ G (2 ^ k * m) = 2 ^ k * u := by
  intro k
  induction k with
  | zero =>
    intro m hm
    refine ⟨G m, ?_, ?_⟩
    · rw [G_mod_two]
      exact hm
    · rw [pow_zero, one_mul, one_mul]
  | succ k ih =>
    intro m hm
    obtain ⟨u, hu, hG⟩ := ih m hm
    have he : 2 ^ (k + 1) * m = 2 * (2 ^ k * m) := by ring
    rw [he, G_two_mul]
    have ht : A ^ (2 ^ k * m) % 4 = 1 := by
      rw [Nat.pow_mod]
      norm_num [A]
    have hw : ∃ w, w % 2 = 1 ∧ 1 + A ^ (2 ^ k * m) = 2 * w := by
      refine ⟨(1 + A ^ (2 ^ k * m)) / 2, ?_, ?_⟩ <;> omega
    obtain ⟨w, hw1, hw2⟩ := hw
    refine ⟨u * w, ?_, ?_⟩
    · rw [Nat.mul_mod, hu, hw1]
    · rw [hG, hw2]
      ring

theorem G_cast_mul (n : ℕ) : ((G n : ℕ) : ℤ) * ((A : ℤ) - 1) = (A : ℤ) ^ n - 1 := by
  have h : ((G n : ℕ) : ℤ) = ∑ i ∈ Finset.range n, (A : ℤ) ^ i := by
    unfold G
    push_cast
    rfl
  rw [h]
  exact geom_sum_mul (A : ℤ) n

theorem lcg_periodic_dvd (s n : ℕ) (hs : s < 2 ^ 48) (hper : lcg^[n] s = s) :
    2 ^ 48 ∣ n := by
  rcases Nat.eq_zero_or_pos n with hn0 | hn1
  · rw [hn0]
    exact dvd_zero _
  have hcong : s ≡ A ^ n * s + C * G n [MOD 2 ^ 48] := by
    have h := lcg_iterate_modEq s n
    rwa [hper] at h
  have hle : s ≤ A ^ n * s + C * G n := by
    have h1 : 1 * s ≤ A ^ n * s :=
      Nat.mul_le_mul_right s (Nat.pos_pow_of_pos n (by norm_num [A]))
    omega
  have hdvd : 2 ^ 48 ∣ (A ^ n * s + C * G n) - s := (Nat.modEq_iff_dvd' hle).mp hcong
  have hfactor : (A ^ n * s + C * G n) - s = G n * ((A - 1) * s + C) := by
    have hA1 : 1 ≤ A := by norm_num [A]
    zify [hle, hA1]
    linear_combination (-(s : ℤ)) * G_cast_mul n
  have hD : ((A - 1) * s + C) % 2 = 1 := by
    have hA2 : (A - 1) % 2 = 0 := by norm_num [A]
    have h1 : (A - 1) * s % 2 = 0 := by
      rw [Nat.mul_mod, hA2, zero_mul]
      norm_num
    have hC2 : C % 2 = 1 := by norm_num [C]
    omega
  rw [hfactor] at hdvd
  obtain ⟨k, m, hm2, hn⟩ :=
    Nat.exists_eq_pow_mul_and_not_dvd (Nat.pos_iff_ne_zero.mp hn1) 2 (by norm_num)
  have hm1 : m % 2 = 1 := Nat.two_dvd_ne_zero.mp hm2
  obtain ⟨u, hu, hG⟩ := G_two_pow_mul k m hm1
  rw [hn, hG] at hdvd
  have hodd : (u * ((A - 1) * s + C)) % 2 = 1 := by
    rw [Nat.mul_mod, hu, hD]
  have hcop : Nat.Coprime (2 ^ 48) (u * ((A - 1) * s + C)) :=
    Nat.Coprime.pow_left 48
      ((Nat.prime_two.coprime_iff_not_dvd).mpr (Nat.two_dvd_ne_zero.mpr hodd))
  have h2k : (2:ℕ) ^ 48 ∣ 2 ^ k := by
    apply hcop.dvd_of_dvd_mul_right
    rw [← mul_assoc]
    exact hdvd
  have hk48 : 48 ≤ k := (Nat.pow_dvd_pow_iff_le_right (by norm_num)).mp h2k
  rw [hn]
  exact Dvd.dvd.mul_right (pow_dvd_pow 2 hk48) m

theorem lcg_no_short_period (t d : ℕ) (ht : t < 2 ^ 48) (hd1 : 1 ≤ d) (hd2 : d < 2 ^ 48)
    (hper : lcg^[d] t = t) : False := by
  have h1 := lcg_periodic_dvd t d ht hper
  have h2 := Nat.eq_zero_of_dvd_of_lt h1 hd2
  omega

theorem lcg_orbit_image (s : ℕ) (hs : s < 2 ^ 48) :
    (Finset.range (2 ^ 48)).image (fun i => lcg^[i] s) = Finset.range (2 ^ 48) := by
  have hinj : ∀ i j, i < j → j < 2 ^ 48 → lcg^[i] s = lcg^[j] s → False := by
    intro i j hij hj heq
    have hd : j = (j - i) + i := by omega
    have hsplit : lcg^[j] s = lcg^[j - i] (lcg^[i] s) := by
      conv_lhs => rw [hd]
      rw [Function.iterate_add_apply]
    have hper : lcg^[j - i] (lcg^[i] s) = lcg^[i] s := by
      rw [← hsplit, ← heq]
    exact lcg_no_short_period (lcg^[i] s) (j - i) (lcg_iterate_lt s hs i)
      (by omega) (by omega) hper
  apply Finset.eq_of_subset_of_card_le
  · intro x hx
    rw [Finset.mem_image] at hx
    obtain ⟨i, _, rfl⟩ := hx
    rw [Finset.mem_range]
    exact lcg_iterate_lt s hs i
  · have hinjOn : Set.InjOn (fun i => lcg^[i] s) ↑(Finset.range (2 ^ 48)) := by
      intro i hi j hj hij
      simp only [Finset.coe_range, Set.mem_Iio] at hi hj
      by_contra hne
      rcases Nat.lt_or_ge i j with h | h
      · exact hinj i j h hj hij
      · have h' : j < i := by omega
        exact hinj j i h' hi hij.symm
    rw [Finset.card_image_of_injOn hinjOn]

theorem lcg_orbit_hits_small (s : ℕ) (hs : s < 2 ^ 48) :
    ∃ i, 1 ≤ i ∧ lcg^[i] s < 2 ^ 17 := by
  have himg := lcg_orbit_image s hs
  have h0 : (0:ℕ) ∈ (Finset.range (2 ^ 48)).image (fun i => lcg^[i] s) := by
    rw [himg, Finset.mem_range]
    norm_num
  have h1 : (1:ℕ) ∈ (Finset.range (2 ^ 48)).image (fun i => lcg^[i] s) := by
    rw [himg, Finset.mem_range]
    norm_num
  rw [Finset.mem_image] at h0 h1
  obtain ⟨i0, _, hi0⟩ := h0
  obtain ⟨i1, _, hi1⟩ := h1
  rcases Nat.eq_zero_or_pos i0 with h | h
  · rcases Nat.eq_zero_or_pos i1 with h' | h'
    · exfalso
      rw [h] at hi0
      rw [h'] at hi1
      simp only [Function.iterate_zero_apply] at hi0 hi1
      omega
    · exact ⟨i1, h', by rw [hi1]; norm_num⟩
  · exact ⟨i0, h, by rw [hi0]; norm_num⟩

theorem general_path_draw_zero (max : ℤ) (h1 : 0 < max) (h2 : max < 2 ^ 31) :
    general_path_draw max 0 = some 0 := by
  have he : (0:ℤ) - Int.tmod 0 max + (max - 1) = max - 1 := by
    rw [Int.zero_tmod]
    ring
  have e31 : (2:ℤ) ^ 31 = 2147483648 := by norm_num
  have hnc : ¬ wrap32 ((0:ℤ) - Int.tmod 0 max + (max - 1)) < 0 := by
    rw [he, wrap32_eq_self (by omega) (by omega)]
    omega
  simp only [general_path_draw]
  rw [if_neg hnc, Int.zero_tmod]

theorem draw_zero_of_small (r : Random) (h : lcg r.state < 2 ^ 17) :
    (step r 31).1 = 0 := by
  rw [step_val, Nat.shiftRight_eq_div_pow]
  exact Nat.div_eq_of_lt h

theorem bound_loop_isSome (max : ℤ) (h1 : 0 < max) (h2 : max < 2 ^ 31) :
    ∀ (n : ℕ) (r : Random), 1 ≤ n → lcg^[n] r.state < 2 ^ 17 →
      (bound_loop max n r).isSome = true := by
  intro n
  induction n with
  | zero =>
    intro r h hsm
    exact absurd h (by norm_num)
  | succ n ih =>
    intro r _ hsm
    simp only [bound_loop]
    cases hg : general_path_draw max (((step r 31).1 : ℕ) : ℤ) with
    | some val => rfl
    | none =>
      cases n with
      | zero =>
        exfalso
        have hsmall1 : lcg r.state < 2 ^ 17 := by
          simpa using hsm
        have hz := draw_zero_of_small r hsmall1
        rw [hz, Nat.cast_zero, general_path_draw_zero max h1 h2] at hg
        exact Option.noConfusion hg
      | succ m =>
        apply ih _ (by omega)
        rw [step_state_lcg, ← Function.iterate_succ_apply]
        exact hsm

/-- Termination of the rejection loop of `next_i32_bound`: from every masked
state and every `max` in `(0, 2^31)`, some finite fuel makes the loop accept.
Proof: the LCG has full period 2^48 (geometric-sum valuation argument), so the
orbit reaches a state below `2^17`, whose draw 0 always passes the test. -/
theorem rejection_loop_terminates (max : ℤ) (h1 : 0 < max) (h2 : max < 2 ^ 31)
    (r : Random) (hr : r.state < 2 ^ 48) :
    ∃ fuel, (bound_loop max fuel r).isSome = true := by
  obtain ⟨i, hi1, hismall⟩ := lcg_orbit_hits_small r.state hr
  exact ⟨i, bound_loop_isSome max h1 h2 i r hi1 hismall⟩

/-- Termination of `next_i32_bound` as a whole for valid `max`: some finite
fuel produces a normal return on either path. -/
theorem next_i32_bound_terminates (r : Random) (max : ℤ)
    (h1 : 0 < max) (h2 : max < 2 ^ 31) (hr : r.state < 2 ^ 48) :
    ∃ fuel v r', next_i32_bound fuel r max = some (some v, r') := by
  by_cases hp : is_power_of_two max.toNat
  · refine ⟨0, ((fast_path_draw max.toNat (step r 31).1 : ℕ) : ℤ), (step r 31).2, ?_⟩
    rw [next_i32_bound, if_neg (by omega), if_pos hp]
  · obtain ⟨fuel, hf⟩ := rejection_loop_terminates max h1 h2 r hr
    obtain ⟨q, hq⟩ := Option.isSome_iff_exists.mp hf
    refine ⟨fuel, q.1, q.2, ?_⟩
    rw [next_i32_bound, if_neg (by omega), if_neg hp, hq]
    rfl

end JavaRand
